import Mathlib


/-!
Verification of the family-scoped authorization layer of the homeschool-hub
repository: the permission resolver (`core/permissions.py`), the family
selector (`core/utils.get_selected_family`), the backfill migration
(`core/utils.backfill_families`), and the invitation lifecycle
(`core/models.Invitation`, `core/views.py`, `core/forms.py`).

Users, families and memberships are identified by natural-number ids; the
database tables are embedded as Lean lists of rows.
-/

namespace HomeschoolHub

/-! ## Data model and operations, embedded from the sources -/

/-- Membership roles (`core/models.py`, `FamilyMembership.ROLE_CHOICES`). -/
inductive Role where
  | parent
  | teacher
  | admin
deriving DecidableEq, Repr

/-- A `FamilyMembership` row (`core/models.py`): links a user to a family with
a role.  `id` is the auto primary key used by `order_by("id")`. -/
structure Membership where
  id : Nat
  userId : Nat
  familyId : Nat
  role : Role
deriving DecidableEq, Repr

/-- An owned resource record (Student / Curriculum / Assignment): a legacy
owner FK `parent` and a nullable family FK (`family = models.ForeignKey(...,
null=True)` on Assignment; the spec gives the same shape to all three). -/
structure Record where
  parent : Nat
  familyId : Option Nat
deriving DecidableEq, Repr

/-- `EDIT_ROLES = ("parent", "admin")` (`core/permissions.py`). -/
def EDIT_ROLES : List Role := [.parent, .admin]

/-- `VIEW_ROLES = ("parent", "teacher", "admin")` (`core/permissions.py`). -/
def VIEW_ROLES : List Role := [.parent, .teacher, .admin]

/-- `viewable_family_ids(user)` (`core/permissions.py` lines 19-25):
family ids of the user's memberships whose role is in `VIEW_ROLES`. -/
def viewable_family_ids (ms : List Membership) (user : Nat) : List Nat :=
  (ms.filter fun m => m.userId == user && VIEW_ROLES.contains m.role).map
    fun m => m.familyId

/-- `editable_family_ids(user)` (`core/permissions.py` lines 28-34). -/
def editable_family_ids (ms : List Membership) (user : Nat) : List Nat :=
  (ms.filter fun m => m.userId == user && EDIT_ROLES.contains m.role).map
    fun m => m.familyId

/-- SQL semantics of `family__in=ids` on a nullable column: a NULL family is
never a member of the id list. -/
def familyIn (ids : List Nat) (fam : Option Nat) : Bool :=
  match fam with
  | some f => ids.contains f
  | none => false

/-- `can_view_family(user, family)` (`core/permissions.py` lines 37-43). -/
def can_view_family (ms : List Membership) (user : Nat) (family : Option Nat) :
    Bool :=
  match family with
  | none => false
  | some f =>
      ms.any fun m =>
        m.userId == user && m.familyId == f && VIEW_ROLES.contains m.role

/-- `can_edit_family(user, family)` (`core/permissions.py` lines 46-52). -/
def can_edit_family (ms : List Membership) (user : Nat) (family : Option Nat) :
    Bool :=
  match family with
  | none => false
  | some f =>
      ms.any fun m =>
        m.userId == user && m.familyId == f && EDIT_ROLES.contains m.role

/-- `viewable_queryset(qs, user)` (`core/permissions.py` lines 55-67):
`Q(family__in=viewable_family_ids(user)) | Q(family__isnull=True, parent=user)`. -/
def viewable_queryset (ms : List Membership) (qs : List Record) (user : Nat) :
    List Record :=
  qs.filter fun r =>
    familyIn (viewable_family_ids ms user) r.familyId
      || (r.familyId == none && r.parent == user)

/-- `editable_queryset(qs, user)` (`core/permissions.py` lines 70-82). -/
def editable_queryset (ms : List Membership) (qs : List Record) (user : Nat) :
    List Record :=
  qs.filter fun r =>
    familyIn (editable_family_ids ms user) r.familyId
      || (r.familyId == none && r.parent == user)

/-- `user_can_edit(user)` (`core/permissions.py` lines 108-117): true when the
user has no memberships at all (legacy fallback) or some membership with an
edit role. -/
def user_can_edit (ms : List Membership) (user : Nat) : Bool :=
  let memberships := ms.filter fun m => m.userId == user
  if memberships.isEmpty then true
  else memberships.any fun m => EDIT_ROLES.contains m.role

/-- `scoped_queryset(qs, user, family)` (`core/permissions.py` lines 85-105). -/
def scoped_queryset (ms : List Membership) (qs : List Record) (user : Nat)
    (family : Option Nat) : List Record :=
  match family with
  | none => qs.filter fun r => r.familyId == none && r.parent == user
  | some f =>
      if user_can_edit ms user then
        qs.filter fun r =>
          r.familyId == some f || (r.familyId == none && r.parent == user)
      else
        qs.filter fun r => r.familyId == some f

/-- `.order_by("id").first()` on a list of membership rows: the row with the
least `id` (first wins on ties; database ids are unique). -/
def firstById (l : List Membership) : Option Membership :=
  l.foldl
    (fun acc m =>
      match acc with
      | none => some m
      | some a => if m.id < a.id then some m else some a)
    none

/-- Steps 3-5 of `get_selected_family` (`core/utils.py` lines 78-106): first
parent-role membership by id, else first any-role membership by id (both
persisted to session), else none.  The session key was already cleared (or
absent) when this runs. -/
def selFallback (ms : List Membership) (u : Nat) : Option Nat × Option Nat :=
  match firstById (ms.filter fun m => m.userId == u && m.role == Role.parent) with
  | some m => (some m.familyId, some m.familyId)
  | none =>
      match firstById (ms.filter fun m => m.userId == u) with
      | some m => (some m.familyId, some m.familyId)
      | none => (none, none)

/-- Step 2 of `get_selected_family` (`core/utils.py` lines 65-76): a
session-stored family id is kept if the family exists and the user can still
view it; a stale value is deleted and the fallback chain runs. -/
def selSession (fams : List Nat) (ms : List Membership) (u : Nat)
    (session : Option Nat) : Option Nat × Option Nat :=
  match session with
  | some sid =>
      if fams.contains sid && can_view_family ms u (some sid) then
        (some sid, some sid)
      else selFallback ms u
  | none => selFallback ms u

/-- `get_selected_family(request)` (`core/utils.py` lines 31-106) for an
authenticated user, returning (resolved family id, session value afterwards).
`fams` is the set of existing Family ids.  The GET parameter is embedded as
its parse outcome: `none` = absent or empty string, `some none` = present but
`int()` raises, `some (some f)` = parses to `f`.  An id that fails any of the
existence / viewability checks falls through to the session step without
touching the session, exactly as the `try/except ... pass` does. -/
def get_selected_family (fams : List Nat) (ms : List Membership) (u : Nat)
    (param : Option (Option Nat)) (session : Option Nat) :
    Option Nat × Option Nat :=
  match param with
  | some (some fid) =>
      if fams.contains fid && can_view_family ms u (some fid) then
        (some fid, some fid)
      else selSession fams ms u session
  | _ => selSession fams ms u session

/-- `Invitation.STATUS_CHOICES` (`core/models.py` lines 93-100). -/
inductive InviteStatus where
  | pending
  | accepted
  | expired
deriving DecidableEq, Repr

/-- An `Invitation` row (`core/models.py` lines 90-139).  Time is abstract
(`Nat` ticks); `createdAt + maxAge` plays the role of
`created_at + timedelta(days=max_age)`.

The `resentAt` field is *modelled from the spec*: `core/views.py`
(`resend_invite`) writes `invite.resent_at` and saves it as a model field,
but the field declaration is missing from the `Invitation` model in the
sources; the spec lists `resent_at (nullable)` among the Invitation
attributes. -/
structure Invitation where
  email : String
  familyId : Nat
  invitedBy : Nat
  role : Role
  status : InviteStatus
  createdAt : Nat
  acceptedAt : Option Nat
  resentAt : Option Nat
deriving DecidableEq, Repr

/-- `Invitation.is_expired` (`core/models.py` lines 136-139):
`timezone.now() > created_at + timedelta(days=max_age)`. -/
def is_expired (maxAge now : Nat) (inv : Invitation) : Bool :=
  inv.createdAt + maxAge < now

/-- Modelled from the spec: `Invitation.is_resendable` is called by
`core/views.py` (`resend_invite`) but its definition is missing from the
sources; the spec says resend is "permitted only while still pending and not
expired". -/
def is_resendable (maxAge now : Nat) (inv : Invitation) : Bool :=
  inv.status == .pending && !(is_expired maxAge now inv)

/-- `resend_invite` (`core/views.py` lines 80-105), restricted to its effect
on the invitation row: when resendable, the email is sent (second component
`true`) and `resent_at` is stamped with the current time; otherwise nothing
changes and no email is sent. -/
def resend_invite (maxAge now : Nat) (inv : Invitation) : Invitation × Bool :=
  if is_resendable maxAge now inv then
    ({ inv with resentAt := some now }, true)
  else
    (inv, false)

/-- `TeacherInviteForm.clean_email` (`core/forms.py` lines 20-28): the email
is normalised with `strip().lower()` and rejected when a pending invitation
for the same (email, family) already exists. -/
def clean_email (invs : List Invitation) (familyId : Nat) (email : String) :
    Except String String :=
  let e := email.trim.toLower
  if invs.any fun i => i.email == e && i.familyId == familyId && i.status == .pending
  then .error "A pending invitation already exists for this email."
  else .ok e

/-- Invitation creation through the invite form (`core/views.py` lines
52-60): validate via `clean_email`, then insert a new pending row with role
teacher. -/
def create_invitation (invs : List Invitation) (familyId invitedBy now : Nat)
    (email : String) : Except String (List Invitation) :=
  match clean_email invs familyId email with
  | .error msg => .error msg
  | .ok e =>
      let newInvite : Invitation :=
        { email := e, familyId := familyId, invitedBy := invitedBy,
          role := .teacher, status := .pending, createdAt := now,
          acceptedAt := none, resentAt := none }
      .ok (invs ++ [newInvite])

/-- At most one pending invitation per (email, family) pair. -/
def UniquePending (invs : List Invitation) : Prop :=
  invs.Pairwise fun a b =>
    ¬(a.status = .pending ∧ b.status = .pending ∧
      a.email = b.email ∧ a.familyId = b.familyId)

/-- `accept_invite` (`core/views.py` lines 108-149), restricted to its effect
on the invitation row and the membership table: rejects an already-accepted
invitation; lazily expires and rejects an expired pending one; otherwise
creates a membership via `get_or_create(user=…, family=…, defaults=role)` and
marks the invitation accepted.  The third component is `true` when acceptance
succeeds; `nextMembId` is the auto id a newly inserted membership row gets. -/
def accept_invite (maxAge now : Nat) (inv : Invitation) (user : Nat)
    (ms : List Membership) (nextMembId : Nat) :
    Invitation × List Membership × Bool :=
  if inv.status == .accepted then (inv, ms, false)
  else if is_expired maxAge now inv then
    (if inv.status == .pending then { inv with status := .expired } else inv,
      ms, false)
  else if !(inv.status == .pending) then (inv, ms, false)
  else
    let ms' :=
      if ms.any fun m => m.userId == user && m.familyId == inv.familyId then ms
      else ms ++ [⟨nextMembId, user, inv.familyId, inv.role⟩]
    ({ inv with status := .accepted, acceptedAt := some now }, ms', true)

/-- A concrete pending invitation used by witnesses. -/
def sampleInvite : Invitation :=
  { email := "t@x.com", familyId := 1, invitedBy := 2, role := .teacher,
    status := .pending, createdAt := 0, acceptedAt := none, resentAt := none }

/-- The sample invitation with its email in the form's normalised spelling. -/
def sampleInviteNorm : Invitation :=
  { sampleInvite with email := "t@x.com".trim.toLower }

/-- The fields of `CustomUser` consumed by the backfill. -/
structure User where
  pk : Nat
  lastName : String
  email : String
deriving DecidableEq, Repr

/-- A `Family` row as created by the backfill: auto id and derived name. -/
structure Family where
  id : Nat
  name : String
deriving DecidableEq, Repr

/-- The full store state the backfill reads and writes.  `nextFamilyId` and
`nextMembId` model the auto-increment primary keys. -/
structure MigState where
  users : List User
  families : List Family
  memberships : List Membership
  students : List Record
  curricula : List Record
  assignments : List Record
  nextFamilyId : Nat
  nextMembId : Nat
deriving DecidableEq, Repr

/-- `_family_name_for_user` (`core/utils.py` lines 109-115): last name +
" Family" when non-empty, else email + " Family", else a generic name. -/
def _family_name_for_user (u : User) : String :=
  if u.lastName ≠ "" then u.lastName ++ " Family"
  else if u.email ≠ "" then u.email ++ " Family"
  else "Family for " ++ toString u.pk

/-- `Model.objects.filter(parent=user, family__isnull=True).update(family=f)`:
stamp family `fid` on every record of owner `pk` that has no family yet. -/
def setFamilyOnNull (pk fid : Nat) (rs : List Record) : List Record :=
  rs.map fun r =>
    if r.parent == pk && r.familyId == none then { r with familyId := some fid }
    else r

/-- The distinct owner ids referenced by any resource collection
(`core/utils.py` lines 131-135); only membership in this collection is ever
used, so duplicates are immaterial. -/
def parentIds (st : MigState) : List Nat :=
  (st.students.map fun r => r.parent) ++ (st.curricula.map fun r => r.parent)
    ++ (st.assignments.map fun r => r.parent)

/-- The loop body of `backfill_families` (`core/utils.py` lines 139-167) for
one user: reuse the first parent-role membership's family, else create a
Family and a parent Membership, then stamp the family on the user's
null-family resource rows. -/
def processUser (u : User) (st : MigState) : MigState :=
  match firstById
      (st.memberships.filter fun m => m.userId == u.pk && m.role == Role.parent) with
  | some m =>
      { st with
        students := setFamilyOnNull u.pk m.familyId st.students
        curricula := setFamilyOnNull u.pk m.familyId st.curricula
        assignments := setFamilyOnNull u.pk m.familyId st.assignments }
  | none =>
      let fid := st.nextFamilyId
      { st with
        families := st.families ++ [⟨fid, _family_name_for_user u⟩]
        memberships := st.memberships ++ [⟨st.nextMembId, u.pk, fid, Role.parent⟩]
        nextFamilyId := fid + 1
        nextMembId := st.nextMembId + 1
        students := setFamilyOnNull u.pk fid st.students
        curricula := setFamilyOnNull u.pk fid st.curricula
        assignments := setFamilyOnNull u.pk fid st.assignments }

/-- `backfill_families` (`core/utils.py` lines 118-167): run `processUser`
over every user who owns at least one resource record. -/
def backfill_families (st : MigState) : MigState :=
  let pids := parentIds st
  (st.users.filter fun u => pids.contains u.pk).foldl
    (fun s u => processUser u s) st

/-- The per-user postcondition of `processUser`: a parent-role membership
exists and no owned resource row is left without a family. -/
def DoneU (st : MigState) (pk : Nat) : Prop :=
  (∃ m ∈ st.memberships, m.userId = pk ∧ m.role = Role.parent)
    ∧ (∀ r ∈ st.students, r.parent = pk → r.familyId ≠ none)
    ∧ (∀ r ∈ st.curricula, r.parent = pk → r.familyId ≠ none)
    ∧ (∀ r ∈ st.assignments, r.parent = pk → r.familyId ≠ none)

/-- A concrete starting store for the backfill witness. -/
def sampleMig : MigState :=
  { users := [⟨1, "Smith", "s@x.com"⟩], families := [], memberships := [],
    students := [⟨1, none⟩], curricula := [], assignments := [⟨1, some 9⟩],
    nextFamilyId := 1, nextMembId := 1 }

/-! ## Theorems -/

/-- Every role is a view role. -/
theorem mem_VIEW_ROLES (r : Role) : VIEW_ROLES.contains r = true := by
  cases r <;> rfl

/-- A role is an edit role exactly when it is parent or admin. -/
theorem mem_EDIT_ROLES (r : Role) :
    EDIT_ROLES.contains r = true ↔ r = .parent ∨ r = .admin := by
  cases r <;> simp [EDIT_ROLES]

/-- Membership in `viewable_family_ids`: the user holds a membership of any
role in the family (every role is a view role). -/
theorem mem_viewable_family_ids (ms : List Membership) (u f : Nat) :
    f ∈ viewable_family_ids ms u ↔
      ∃ m ∈ ms, m.userId = u ∧ m.familyId = f := by
  simp only [viewable_family_ids, List.mem_map, List.mem_filter,
    Bool.and_eq_true, beq_iff_eq, mem_VIEW_ROLES, and_true]
  constructor
  · rintro ⟨m, ⟨hm, hu⟩, hf⟩
    exact ⟨m, hm, hu, hf⟩
  · rintro ⟨m, hm, hu, hf⟩
    exact ⟨m, ⟨hm, hu⟩, hf⟩

/-- Membership in `editable_family_ids`: the user holds a parent or admin
membership in the family. -/
theorem mem_editable_family_ids (ms : List Membership) (u f : Nat) :
    f ∈ editable_family_ids ms u ↔
      ∃ m ∈ ms, m.userId = u ∧ m.familyId = f ∧
        (m.role = .parent ∨ m.role = .admin) := by
  simp only [editable_family_ids, List.mem_map, List.mem_filter,
    Bool.and_eq_true, beq_iff_eq, mem_EDIT_ROLES]
  constructor
  · rintro ⟨m, ⟨hm, hu, hr⟩, hf⟩
    exact ⟨m, hm, hu, hf, hr⟩
  · rintro ⟨m, hm, hu, hf, hr⟩
    exact ⟨m, ⟨hm, hu, hr⟩, hf⟩

/-- Unfolds membership in the viewable queryset to a proposition. -/
theorem mem_viewable_queryset (ms : List Membership) (qs : List Record)
    (u : Nat) (r : Record) :
    r ∈ viewable_queryset ms qs u ↔
      r ∈ qs ∧
        ((∃ f, r.familyId = some f ∧ f ∈ viewable_family_ids ms u)
          ∨ (r.familyId = none ∧ r.parent = u)) := by
  simp only [viewable_queryset, List.mem_filter, Bool.or_eq_true,
    Bool.and_eq_true, beq_iff_eq]
  refine and_congr_right fun _ => or_congr ?_ (by simp)
  cases hf : r.familyId with
  | none => simp [familyIn, hf]
  | some f => simp [familyIn, hf, List.elem_iff]

/-- Unfolds membership in the editable queryset to a proposition. -/
theorem mem_editable_queryset (ms : List Membership) (qs : List Record)
    (u : Nat) (r : Record) :
    r ∈ editable_queryset ms qs u ↔
      r ∈ qs ∧
        ((∃ f, r.familyId = some f ∧ f ∈ editable_family_ids ms u)
          ∨ (r.familyId = none ∧ r.parent = u)) := by
  simp only [editable_queryset, List.mem_filter, Bool.or_eq_true,
    Bool.and_eq_true, beq_iff_eq]
  refine and_congr_right fun _ => or_congr ?_ (by simp)
  cases hf : r.familyId with
  | none => simp [familyIn, hf]
  | some f => simp [familyIn, hf, List.elem_iff]

/-- C1: `viewable_queryset` contains exactly the records whose family is one
of the user's membership families (any role), or whose family is null and
whose legacy owner is the user; a null-family record owned by U is in U's
viewable set and in no other user's. -/
theorem C1_viewable_queryset_exact (ms : List Membership) (qs : List Record)
    (u : Nat) :
    (∀ r : Record, r ∈ viewable_queryset ms qs u ↔
      r ∈ qs ∧
        ((∃ f, r.familyId = some f ∧ ∃ m ∈ ms, m.userId = u ∧ m.familyId = f)
          ∨ (r.familyId = none ∧ r.parent = u)))
    ∧ (∀ r ∈ qs, r.familyId = none → r.parent = u →
        r ∈ viewable_queryset ms qs u)
    ∧ (∀ r : Record, ∀ v : Nat, r.familyId = none → r.parent = u → v ≠ u →
        r ∉ viewable_queryset ms qs v) := by
  have hmem : ∀ r : Record, r ∈ viewable_queryset ms qs u ↔
      r ∈ qs ∧
        ((∃ f, r.familyId = some f ∧ ∃ m ∈ ms, m.userId = u ∧ m.familyId = f)
          ∨ (r.familyId = none ∧ r.parent = u)) := by
    intro r
    rw [mem_viewable_queryset]
    refine and_congr_right fun _ => or_congr ?_ Iff.rfl
    exact exists_congr fun f => and_congr_right fun _ => mem_viewable_family_ids ms u f
  refine ⟨hmem, ?_, ?_⟩
  · intro r hr hn hp
    exact (hmem r).mpr ⟨hr, Or.inr ⟨hn, hp⟩⟩
  · intro r v hn hp hv hmemv
    rcases ((mem_viewable_queryset ms qs v r).mp hmemv).2 with ⟨f, hf, _⟩ | ⟨_, hpv⟩
    · rw [hn] at hf; exact Option.noConfusion hf
    · exact hv (hpv.symm ▸ hp ▸ rfl)

/-- C1 witness. -/
theorem C1_viewable_queryset_exact_witness :
    (⟨10, none⟩ : Record) ∈
      viewable_queryset [⟨1, 10, 3, .teacher⟩] [⟨10, none⟩, ⟨11, some 3⟩] 10 ∧
    (⟨10, none⟩ : Record) ∉
      viewable_queryset [⟨1, 10, 3, .teacher⟩] [⟨10, none⟩, ⟨11, some 3⟩] 11 := by
  have h := C1_viewable_queryset_exact [⟨1, 10, 3, .teacher⟩]
    [⟨10, none⟩, ⟨11, some 3⟩] 10
  exact ⟨h.2.1 ⟨10, none⟩ (by decide) rfl rfl,
    h.2.2 ⟨10, none⟩ 11 rfl rfl (by decide)⟩

/-- C2: `editable_queryset` contains exactly the records whose family is one
of the user's parent/admin membership families, or whose family is null and
whose legacy owner is the user; hence every record tagged with a family where
the user holds a parent/admin membership is editable whenever present. -/
theorem C2_editable_queryset_exact (ms : List Membership) (qs : List Record)
    (u : Nat) :
    (∀ r : Record, r ∈ editable_queryset ms qs u ↔
      r ∈ qs ∧
        ((∃ f, r.familyId = some f ∧ ∃ m ∈ ms, m.userId = u ∧ m.familyId = f ∧
            (m.role = .parent ∨ m.role = .admin))
          ∨ (r.familyId = none ∧ r.parent = u)))
    ∧ (∀ f : Nat, ∀ m ∈ ms, m.userId = u → m.familyId = f →
        (m.role = .parent ∨ m.role = .admin) →
        ∀ r ∈ qs, r.familyId = some f → r ∈ editable_queryset ms qs u) := by
  have hmem : ∀ r : Record, r ∈ editable_queryset ms qs u ↔
      r ∈ qs ∧
        ((∃ f, r.familyId = some f ∧ ∃ m ∈ ms, m.userId = u ∧ m.familyId = f ∧
            (m.role = .parent ∨ m.role = .admin))
          ∨ (r.familyId = none ∧ r.parent = u)) := by
    intro r
    rw [mem_editable_queryset]
    refine and_congr_right fun _ => or_congr ?_ Iff.rfl
    exact exists_congr fun f => and_congr_right fun _ =>
      mem_editable_family_ids ms u f
  refine ⟨hmem, ?_⟩
  intro f m hm hu hf hr r hrq hrf
  exact (hmem r).mpr ⟨hrq, Or.inl ⟨f, hrf, m, hm, hu, hf, hr⟩⟩

/-- C2 witness. -/
theorem C2_editable_queryset_exact_witness :
    (⟨11, some 3⟩ : Record) ∈
      editable_queryset [⟨1, 10, 3, .parent⟩] [⟨10, none⟩, ⟨11, some 3⟩] 10 := by
  exact (C2_editable_queryset_exact [⟨1, 10, 3, .parent⟩]
    [⟨10, none⟩, ⟨11, some 3⟩] 10).2 3 ⟨1, 10, 3, .parent⟩ (by decide) rfl rfl
    (Or.inl rfl) ⟨11, some 3⟩ (by decide) rfl

/-- C3: `user_can_edit` is true iff the user holds a parent/admin membership
in some family or has no memberships at all; it is false exactly when the
user has at least one membership and all of them are teacher-role. -/
theorem C3_user_can_edit_spec (ms : List Membership) (u : Nat) :
    (user_can_edit ms u = true ↔
      ((∃ m ∈ ms, m.userId = u ∧ (m.role = .parent ∨ m.role = .admin))
        ∨ (∀ m ∈ ms, m.userId ≠ u)))
    ∧ (user_can_edit ms u = false ↔
      ((∃ m ∈ ms, m.userId = u) ∧ ∀ m ∈ ms, m.userId = u → m.role = .teacher)) := by
  have htrue : user_can_edit ms u = true ↔
      ((∃ m ∈ ms, m.userId = u ∧ (m.role = .parent ∨ m.role = .admin))
        ∨ (∀ m ∈ ms, m.userId ≠ u)) := by
    unfold user_can_edit
    by_cases h : (ms.filter fun m => m.userId == u) = []
    · simp only [h, List.isEmpty_nil, if_true, true_iff]
      refine Or.inr fun m hm hu => ?_
      have : m ∈ ms.filter fun m => m.userId == u :=
        List.mem_filter.mpr ⟨hm, by simp [hu]⟩
      simp [h] at this
    · have hne : ((ms.filter fun m => m.userId == u).isEmpty) = false := by
        simpa [List.isEmpty_iff] using h
      simp only [hne, Bool.false_eq_true, if_false, List.any_eq_true,
        List.mem_filter, Bool.and_eq_true, beq_iff_eq, mem_EDIT_ROLES]
      constructor
      · rintro ⟨m, ⟨hm, hu⟩, hr⟩
        exact Or.inl ⟨m, hm, hu, hr⟩
      · rintro (⟨m, hm, hu, hr⟩ | hall)
        · exact ⟨m, ⟨hm, hu⟩, hr⟩
        · rcases List.exists_mem_of_ne_nil _ h with ⟨m, hm⟩
          rcases List.mem_filter.mp hm with ⟨hms, hu⟩
          exact absurd (beq_iff_eq.mp hu) (hall m hms)
  refine ⟨htrue, ?_⟩
  rw [Bool.eq_false_iff, Ne, ← Bool.not_eq_false, Bool.not_eq_false, htrue]
  push_neg
  constructor
  · rintro ⟨hnoedit, m, hm, hu⟩
    refine ⟨⟨m, hm, hu⟩, fun m' hm' hu' => ?_⟩
    have h2 := hnoedit m' hm' hu'
    cases hr : m'.role with
    | parent => exact absurd hr h2.1
    | admin => exact absurd hr h2.2
    | teacher => rfl
  · rintro ⟨⟨m, hm, hu⟩, hall⟩
    refine ⟨fun m' hm' hu' => ?_, m, hm, hu⟩
    have ht := hall m' hm' hu'
    exact ⟨by simp [ht], by simp [ht]⟩

/-- C3 witness. -/
theorem C3_user_can_edit_spec_witness :
    user_can_edit [⟨1, 10, 3, .teacher⟩] 10 = false := by
  exact (C3_user_can_edit_spec [⟨1, 10, 3, .teacher⟩] 10).2.mpr
    ⟨⟨⟨1, 10, 3, .teacher⟩, by decide, rfl⟩,
     by intro m hm hu; simp at hm; simp [hm]⟩

/-- C4: `scoped_queryset` returns the user's legacy untagged records when no
family is selected; only the selected family's records for a user without
edit rights (teacher); and the family's records plus the user's own legacy
untagged records for a user with edit rights (parent/admin). -/
theorem C4_scoped_queryset_spec (ms : List Membership) (qs : List Record)
    (u : Nat) :
    (∀ r : Record, r ∈ scoped_queryset ms qs u none ↔
      r ∈ qs ∧ r.familyId = none ∧ r.parent = u)
    ∧ (user_can_edit ms u = false →
        ∀ f : Nat,
          (∀ r : Record, r ∈ scoped_queryset ms qs u (some f) ↔
            r ∈ qs ∧ r.familyId = some f)
          ∧ ∀ r ∈ scoped_queryset ms qs u (some f), r.familyId ≠ none)
    ∧ (user_can_edit ms u = true →
        ∀ f : Nat, ∀ r : Record, r ∈ scoped_queryset ms qs u (some f) ↔
          r ∈ qs ∧ (r.familyId = some f ∨ (r.familyId = none ∧ r.parent = u))) := by
  refine ⟨?_, ?_, ?_⟩
  · intro r
    simp [scoped_queryset, List.mem_filter, and_assoc]
  · intro h f
    have hiff : ∀ r : Record, r ∈ scoped_queryset ms qs u (some f) ↔
        r ∈ qs ∧ r.familyId = some f := by
      intro r
      simp [scoped_queryset, h, List.mem_filter]
    refine ⟨hiff, fun r hr hn => ?_⟩
    have := ((hiff r).mp hr).2
    rw [hn] at this
    exact Option.noConfusion this
  · intro h f r
    simp [scoped_queryset, h, List.mem_filter, and_assoc]

/-- C4 witness: the spec's concrete scenario — a teacher sees only the
family-tagged records, no legacy null-family leakage. -/
theorem C4_scoped_queryset_spec_witness :
    ((⟨10, some 3⟩ : Record) ∈
      scoped_queryset [⟨1, 20, 3, .teacher⟩] [⟨10, some 3⟩, ⟨12, none⟩] 20 (some 3))
    ∧ ((⟨12, none⟩ : Record) ∉
      scoped_queryset [⟨1, 20, 3, .teacher⟩] [⟨10, some 3⟩, ⟨12, none⟩] 20 (some 3)) := by
  have h := (C4_scoped_queryset_spec [⟨1, 20, 3, .teacher⟩]
    [⟨10, some 3⟩, ⟨12, none⟩] 20).2.1 (by decide) 3
  refine ⟨(h.1 ⟨10, some 3⟩).mpr ⟨by decide, rfl⟩, fun hc => ?_⟩
  have := (h.1 ⟨12, none⟩).mp hc
  simp at this

/-- `firstById` of the empty list is `none`. -/
theorem firstById_nil : firstById [] = none := rfl

/-- Folding the min-by-id step starting from the minimal row keeps it. -/
theorem foldl_firstById_keep (l : List Membership) (m : Membership)
    (h : ∀ m' ∈ l, m' = m ∨ m.id < m'.id) :
    (l.foldl
      (fun acc m' =>
        match acc with
        | none => some m'
        | some a => if m'.id < a.id then some m' else some a)
      (some m)) = some m := by
  induction l with
  | nil => rfl
  | cons b l ih =>
      have hb : (if b.id < m.id then some b else some m) = some m := by
        rcases h b (List.mem_cons_self b l) with hb | hb
        · subst hb; simp
        · simp [Nat.not_lt.mpr (Nat.le_of_lt hb)]
      simpa [List.foldl_cons, hb] using
        ih fun m' hm' => h m' (List.mem_cons_of_mem b hm')

/-- Folding from any accumulator at least as large finds the minimal row. -/
theorem foldl_firstById_reach (l : List Membership) (m : Membership)
    (hm : m ∈ l) (hmin : ∀ m' ∈ l, m' = m ∨ m.id < m'.id) :
    ∀ a : Membership, a = m ∨ m.id < a.id →
      (l.foldl
        (fun acc m' =>
          match acc with
          | none => some m'
          | some a => if m'.id < a.id then some m' else some a)
        (some a)) = some m := by
  induction l with
  | nil => cases hm
  | cons b l ih =>
      intro a ha
      by_cases hbm : b = m
      · subst hbm
        have hstep : (if b.id < a.id then some b else some a) = some b := by
          rcases ha with ha | ha
          · subst ha; simp
          · simp [ha]
        simpa [List.foldl_cons, hstep] using
          foldl_firstById_keep l b fun m' hm' =>
            hmin m' (List.mem_cons_of_mem b hm')
      · have hmb : m.id < b.id := by
          rcases hmin b (List.mem_cons_self b l) with h | h
          · exact absurd h hbm
          · exact h
        have hml : m ∈ l := by
          rcases List.mem_cons.mp hm with h | h
          · exact absurd h.symm hbm
          · exact h
        have hnext : (if b.id < a.id then some b else some a) = some b ∨
            (if b.id < a.id then some b else some a) = some a := by
          by_cases hba : b.id < a.id <;> simp [hba]
        rcases hnext with hn | hn
        · rw [List.foldl_cons]
          simp only [hn]
          exact ih hml (fun m' hm' => hmin m' (List.mem_cons_of_mem b hm'))
            b (Or.inr hmb)
        · rw [List.foldl_cons]
          simp only [hn]
          exact ih hml (fun m' hm' => hmin m' (List.mem_cons_of_mem b hm'))
            a ha

/-- `firstById` returns the row with the least id. -/
theorem firstById_eq_min (l : List Membership) (m : Membership) (hm : m ∈ l)
    (hmin : ∀ m' ∈ l, m' = m ∨ m.id < m'.id) :
    firstById l = some m := by
  cases l with
  | nil => cases hm
  | cons b l =>
      unfold firstById
      rw [List.foldl_cons]
      by_cases hbm : b = m
      · subst hbm
        exact foldl_firstById_keep l b fun m' hm' =>
          hmin m' (List.mem_cons_of_mem b hm')
      · have hml : m ∈ l := by
          rcases List.mem_cons.mp hm with h | h
          · exact absurd h.symm hbm
          · exact h
        have hmb : m.id < b.id := by
          rcases hmin b (List.mem_cons_self b l) with h | h
          · exact absurd h hbm
          · exact h
        exact foldl_firstById_reach l m hml
          (fun m' hm' => hmin m' (List.mem_cons_of_mem b hm')) b (Or.inr hmb)

/-- An invalid or absent GET parameter falls through to the session step. -/
theorem gsf_param_invalid (fams : List Nat) (ms : List Membership) (u : Nat)
    (param : Option (Option Nat)) (session : Option Nat)
    (h : ∀ f : Nat, param = some (some f) →
      ¬(f ∈ fams ∧ can_view_family ms u (some f) = true)) :
    get_selected_family fams ms u param session = selSession fams ms u session := by
  cases param with
  | none => rfl
  | some p =>
      cases p with
      | none => rfl
      | some f =>
          have hc : (fams.contains f && can_view_family ms u (some f)) = false := by
            cases hc : fams.contains f && can_view_family ms u (some f) with
            | false => rfl
            | true =>
                rw [Bool.and_eq_true] at hc
                exact absurd ⟨List.elem_iff.mp hc.1, hc.2⟩ (h f rfl)
          simp only [get_selected_family, hc, Bool.false_eq_true, if_false]

/-- A stale or absent session value falls through to the fallback chain. -/
theorem selSession_invalid (fams : List Nat) (ms : List Membership) (u : Nat)
    (session : Option Nat)
    (h : ∀ s : Nat, session = some s →
      ¬(s ∈ fams ∧ can_view_family ms u (some s) = true)) :
    selSession fams ms u session = selFallback ms u := by
  cases session with
  | none => rfl
  | some s =>
      have hc : (fams.contains s && can_view_family ms u (some s)) = false := by
        cases hc : fams.contains s && can_view_family ms u (some s) with
        | false => rfl
        | true =>
            rw [Bool.and_eq_true] at hc
            exact absurd ⟨List.elem_iff.mp hc.1, hc.2⟩ (h s rfl)
      simp only [selSession, hc, Bool.false_eq_true, if_false]

/-- C5: `get_selected_family` resolves in strict priority order: a valid
viewable GET parameter (persisted, overriding the session), else a
still-valid session family, else the first parent-role family by membership
id (persisted), else the first any-role family, else none; including the
spec's two concrete scenarios. -/
theorem C5_get_selected_family_priority (fams : List Nat)
    (ms : List Membership) (u : Nat) (param : Option (Option Nat))
    (session : Option Nat) :
    (∀ f : Nat, param = some (some f) → f ∈ fams →
      can_view_family ms u (some f) = true →
      get_selected_family fams ms u param session = (some f, some f))
    ∧ ((∀ f : Nat, param = some (some f) →
          ¬(f ∈ fams ∧ can_view_family ms u (some f) = true)) →
        ∀ s : Nat, session = some s → s ∈ fams →
          can_view_family ms u (some s) = true →
          get_selected_family fams ms u param session = (some s, some s))
    ∧ ((∀ f : Nat, param = some (some f) →
          ¬(f ∈ fams ∧ can_view_family ms u (some f) = true)) →
        (∀ s : Nat, session = some s →
          ¬(s ∈ fams ∧ can_view_family ms u (some s) = true)) →
        ∀ m ∈ ms, m.userId = u → m.role = .parent →
          (∀ m' ∈ ms, m'.userId = u → m'.role = .parent →
            m' = m ∨ m.id < m'.id) →
          get_selected_family fams ms u param session =
            (some m.familyId, some m.familyId))
    ∧ ((∀ f : Nat, param = some (some f) →
          ¬(f ∈ fams ∧ can_view_family ms u (some f) = true)) →
        (∀ s : Nat, session = some s →
          ¬(s ∈ fams ∧ can_view_family ms u (some s) = true)) →
        (∀ m ∈ ms, m.userId = u → m.role ≠ .parent) →
        ∀ m ∈ ms, m.userId = u →
          (∀ m' ∈ ms, m'.userId = u → m' = m ∨ m.id < m'.id) →
          get_selected_family fams ms u param session =
            (some m.familyId, some m.familyId))
    ∧ ((∀ f : Nat, param = some (some f) →
          ¬(f ∈ fams ∧ can_view_family ms u (some f) = true)) →
        (∀ s : Nat, session = some s →
          ¬(s ∈ fams ∧ can_view_family ms u (some s) = true)) →
        (∀ m ∈ ms, m.userId ≠ u) →
        (get_selected_family fams ms u param session).1 = none)
    ∧ get_selected_family [5, 7] [⟨1, 1, 5, .parent⟩, ⟨2, 1, 7, .teacher⟩] 1
        (some (some 7)) (some 5) = (some 7, some 7)
    ∧ (get_selected_family [3, 9] [⟨1, 1, 3, .parent⟩, ⟨2, 1, 9, .parent⟩] 1
        none none).1 = some 3 := by
  refine ⟨?_, ?_, ?_, ?_, ?_, by decide, by decide⟩
  · intro f hp hf hv
    subst hp
    have hc : (fams.contains f && can_view_family ms u (some f)) = true := by
      simp [hf, hv]
    simp only [get_selected_family, hc, if_true]
  · intro hp s hs hsf hsv
    rw [gsf_param_invalid fams ms u param session hp]
    subst hs
    have hc : (fams.contains s && can_view_family ms u (some s)) = true := by
      simp [hsf, hsv]
    simp only [selSession, hc, if_true]
  · intro hp hs m hm hu hrole hmin
    rw [gsf_param_invalid fams ms u param session hp,
      selSession_invalid fams ms u session hs]
    have hfm : m ∈ ms.filter fun m' => m'.userId == u && m'.role == Role.parent :=
      List.mem_filter.mpr ⟨hm, by simp [hu, hrole]⟩
    have hfmin : ∀ m' ∈ ms.filter fun m' => m'.userId == u && m'.role == Role.parent,
        m' = m ∨ m.id < m'.id := by
      intro m' hm'
      rcases List.mem_filter.mp hm' with ⟨hm's, hcond⟩
      rw [Bool.and_eq_true] at hcond
      exact hmin m' hm's (beq_iff_eq.mp hcond.1) (beq_iff_eq.mp hcond.2)
    simp only [selFallback, firstById_eq_min _ m hfm hfmin]
  · intro hp hs hnopar m hm hu hmin
    rw [gsf_param_invalid fams ms u param session hp,
      selSession_invalid fams ms u session hs]
    have hnil : (ms.filter fun m' => m'.userId == u && m'.role == Role.parent) = [] := by
      rw [List.filter_eq_nil_iff]
      intro m' hm'
      intro hcond
      rw [Bool.and_eq_true] at hcond
      exact hnopar m' hm' (beq_iff_eq.mp hcond.1) (beq_iff_eq.mp hcond.2)
    have hfm : m ∈ ms.filter fun m' => m'.userId == u :=
      List.mem_filter.mpr ⟨hm, by simp [hu]⟩
    have hfmin : ∀ m' ∈ ms.filter fun m' => m'.userId == u, m' = m ∨ m.id < m'.id := by
      intro m' hm'
      rcases List.mem_filter.mp hm' with ⟨hm's, hcond⟩
      exact hmin m' hm's (beq_iff_eq.mp hcond)
    simp only [selFallback, hnil, firstById_nil, firstById_eq_min _ m hfm hfmin]
  · intro hp hs hno
    rw [gsf_param_invalid fams ms u param session hp,
      selSession_invalid fams ms u session hs]
    have h1 : (ms.filter fun m' => m'.userId == u && m'.role == Role.parent) = [] := by
      rw [List.filter_eq_nil_iff]
      intro m' hm' hcond
      rw [Bool.and_eq_true] at hcond
      exact hno m' hm' (beq_iff_eq.mp hcond.1)
    have h2 : (ms.filter fun m' => m'.userId == u) = [] := by
      rw [List.filter_eq_nil_iff]
      intro m' hm' hcond
      exact hno m' hm' (beq_iff_eq.mp hcond)
    simp only [selFallback, h1, h2, firstById_nil]

/-- C5 witness. -/
theorem C5_get_selected_family_priority_witness :
    get_selected_family [5, 7] [⟨1, 1, 5, .parent⟩, ⟨2, 1, 7, .teacher⟩] 1
      (some (some 7)) (some 5) = (some 7, some 7) := by
  exact (C5_get_selected_family_priority [5, 7]
    [⟨1, 1, 5, .parent⟩, ⟨2, 1, 7, .teacher⟩] 1 (some (some 7)) (some 5)).1
    7 rfl (by decide) (by decide)

/-- C6: resending a pending, unexpired invitation re-sends the email and
stamps `resent_at` with the current time, leaving `created_at` untouched;
resending anything else (accepted, expired, or past its max age) changes
nothing and sends nothing. -/
theorem C6_resend_invite_spec (maxAge now : Nat) (inv : Invitation) :
    (inv.status = .pending → ¬(inv.createdAt + maxAge < now) →
      resend_invite maxAge now inv = ({ inv with resentAt := some now }, true))
    ∧ (resend_invite maxAge now inv).1.createdAt = inv.createdAt
    ∧ ((inv.status ≠ .pending ∨ inv.createdAt + maxAge < now) →
      resend_invite maxAge now inv = (inv, false)) := by
  refine ⟨?_, ?_, ?_⟩
  · intro hp hexp
    have h : is_resendable maxAge now inv = true := by
      simp [is_resendable, is_expired, hp, hexp]
    simp [resend_invite, h]
  · by_cases h : is_resendable maxAge now inv = true <;>
      simp [resend_invite, h]
  · intro hcase
    have h : is_resendable maxAge now inv = false := by
      rcases hcase with hs | he
      · simp [is_resendable, hs]
      · simp [is_resendable, is_expired, he]
    simp [resend_invite, h]

/-- C6 witness. -/
theorem C6_resend_invite_spec_witness :
    resend_invite 7 5 sampleInvite
      = ({ sampleInvite with resentAt := some 5 }, true) := by
  exact (C6_resend_invite_spec 7 5 sampleInvite).1 rfl (by decide)

/-- C7: creating an invitation for an (email, family) pair that already has a
pending invitation is rejected with a validation error (no insert happens),
and successful creation preserves the at-most-one-pending-per-(email, family)
invariant. -/
theorem C7_invitation_unique_pending (invs : List Invitation)
    (fid ub now : Nat) (email : String) :
    ((∃ i ∈ invs, i.email = email.trim.toLower ∧ i.familyId = fid ∧
        i.status = .pending) →
      create_invitation invs fid ub now email =
        .error "A pending invitation already exists for this email.")
    ∧ (∀ invs' : List Invitation,
        create_invitation invs fid ub now email = .ok invs' →
        UniquePending invs → UniquePending invs') := by
  constructor
  · rintro ⟨i, hi, he, hf, hs⟩
    have hany : (invs.any fun i => i.email == email.trim.toLower &&
        i.familyId == fid && i.status == InviteStatus.pending) = true :=
      List.any_eq_true.mpr ⟨i, hi, by simp [he, hf, hs]⟩
    simp [create_invitation, clean_email, hany]
  · intro invs' hok huniq
    cases hany : (invs.any fun i => i.email == email.trim.toLower &&
        i.familyId == fid && i.status == InviteStatus.pending) with
    | true => simp [create_invitation, clean_email, hany] at hok
    | false =>
        have hnew : invs' = invs ++
            [{ email := email.trim.toLower, familyId := fid, invitedBy := ub,
               role := .teacher, status := .pending, createdAt := now,
               acceptedAt := none, resentAt := none }] := by
          simp [create_invitation, clean_email, hany] at hok
          exact hok.symm
        have hnodup : ∀ i ∈ invs, ¬(i.email = email.trim.toLower ∧
            i.familyId = fid ∧ i.status = InviteStatus.pending) := by
          intro i hi hcontra
          have hcond : (i.email == email.trim.toLower && i.familyId == fid &&
              i.status == InviteStatus.pending) = true := by
            simp [hcontra.1, hcontra.2.1, hcontra.2.2]
          have h' : (invs.any fun j => j.email == email.trim.toLower &&
              j.familyId == fid && j.status == InviteStatus.pending) = true :=
            List.any_eq_true.mpr ⟨i, hi, hcond⟩
          rw [hany] at h'
          exact Bool.noConfusion h'
        subst hnew
        unfold UniquePending at huniq ⊢
        rw [List.pairwise_append]
        refine ⟨huniq, List.pairwise_singleton _ _, ?_⟩
        intro a ha b hb
        simp only [List.mem_singleton] at hb
        subst hb
        rintro ⟨hap, _, hae, haf⟩
        exact hnodup a ha ⟨hae, haf, hap⟩

/-- C7 witness. -/
theorem C7_invitation_unique_pending_witness :
    create_invitation [sampleInviteNorm] 1 2 5 "t@x.com" =
      .error "A pending invitation already exists for this email." := by
  exact (C7_invitation_unique_pending [sampleInviteNorm] 1 2 5 "t@x.com").1
    ⟨sampleInviteNorm, List.mem_singleton.mpr rfl, rfl, rfl, rfl⟩

/-- C8: accessing (accepting) a pending invitation past its max age flips its
status to expired, refuses the acceptance (no membership row is created), and
never marks it accepted. -/
theorem C8_accept_expired_invite (maxAge now : Nat) (inv : Invitation)
    (user : Nat) (ms : List Membership) (nid : Nat) :
    inv.status = .pending → inv.createdAt + maxAge < now →
      accept_invite maxAge now inv user ms nid
          = ({ inv with status := .expired }, ms, false)
        ∧ ({ inv with status := .expired } : Invitation).status ≠ .accepted := by
  intro hp hexp
  have h1 : (inv.status == InviteStatus.accepted) = false := by simp [hp]
  have h2 : is_expired maxAge now inv = true := by
    simp [is_expired, hexp]
  refine ⟨?_, by simp⟩
  simp [accept_invite, h1, h2, hp]

/-- C8 witness. -/
theorem C8_accept_expired_invite_witness :
    accept_invite 7 10 sampleInvite 3 [] 1
      = ({ sampleInvite with status := .expired }, [], false) := by
  exact (C8_accept_expired_invite 7 10 sampleInvite 3 [] 1 rfl
    (by decide)).1

/-- C10: accepting a pending, unexpired invitation leaves an existing
membership of the accepting user in the invitation's family untouched (its
role is not overwritten) while still marking the invitation accepted and
stamping `accepted_at`; a membership row carrying the invitation's role is
inserted only when no such membership exists; the unique (user, family)
membership invariant is preserved. -/
theorem C10_accept_invite_membership (maxAge now : Nat) (inv : Invitation)
    (user : Nat) (ms : List Membership) (nid : Nat) :
    inv.status = .pending → ¬(inv.createdAt + maxAge < now) →
    ((∃ m ∈ ms, m.userId = user ∧ m.familyId = inv.familyId) →
        accept_invite maxAge now inv user ms nid
          = ({ inv with status := .accepted, acceptedAt := some now }, ms, true))
    ∧ ((∀ m ∈ ms, ¬(m.userId = user ∧ m.familyId = inv.familyId)) →
        accept_invite maxAge now inv user ms nid
          = ({ inv with status := .accepted, acceptedAt := some now },
              ms ++ [⟨nid, user, inv.familyId, inv.role⟩], true))
    ∧ ((ms.Pairwise fun a b => ¬(a.userId = b.userId ∧ a.familyId = b.familyId)) →
        ((accept_invite maxAge now inv user ms nid).2.1.Pairwise
          fun a b => ¬(a.userId = b.userId ∧ a.familyId = b.familyId))) := by
  intro hp hexp
  have h1 : (inv.status == InviteStatus.accepted) = false := by simp [hp]
  have h2 : is_expired maxAge now inv = false := by
    simp [is_expired, hexp]
  have h3 : (inv.status == InviteStatus.pending) = true := by simp [hp]
  refine ⟨?_, ?_, ?_⟩
  · rintro ⟨m, hm, hmu, hmf⟩
    have hany : (ms.any fun m => m.userId == user && m.familyId == inv.familyId)
        = true := List.any_eq_true.mpr ⟨m, hm, by simp [hmu, hmf]⟩
    simp [accept_invite, h1, h2, h3, hany]
  · intro hno
    have hany : (ms.any fun m => m.userId == user && m.familyId == inv.familyId)
        = false := by
      cases hany : (ms.any fun m => m.userId == user && m.familyId == inv.familyId) with
      | false => rfl
      | true =>
          rcases List.any_eq_true.mp hany with ⟨m, hm, hcond⟩
          rw [Bool.and_eq_true] at hcond
          exact absurd ⟨beq_iff_eq.mp hcond.1, beq_iff_eq.mp hcond.2⟩ (hno m hm)
    simp [accept_invite, h1, h2, h3, hany]
  · intro huniq
    cases hany : (ms.any fun m => m.userId == user && m.familyId == inv.familyId) with
    | true => simpa [accept_invite, h1, h2, h3, hany] using huniq
    | false =>
        have hres : (accept_invite maxAge now inv user ms nid).2.1
            = ms ++ [⟨nid, user, inv.familyId, inv.role⟩] := by
          simp [accept_invite, h1, h2, h3, hany]
        rw [hres, List.pairwise_append]
        refine ⟨huniq, List.pairwise_singleton _ _, ?_⟩
        intro a ha b hb
        simp only [List.mem_singleton] at hb
        subst hb
        rintro ⟨hau, haf⟩
        have hcond : (a.userId == user && a.familyId == inv.familyId) = true := by
          simp [hau, haf]
        have h' : (ms.any fun m => m.userId == user && m.familyId == inv.familyId)
            = true := List.any_eq_true.mpr ⟨a, ha, hcond⟩
        rw [hany] at h'
        exact Bool.noConfusion h'

/-- C10 witness. -/
theorem C10_accept_invite_membership_witness :
    accept_invite 7 5 sampleInvite 3 [⟨1, 3, 1, .admin⟩] 2
      = ({ sampleInvite with status := .accepted, acceptedAt := some 5 },
          [⟨1, 3, 1, .admin⟩], true) := by
  exact (C10_accept_invite_membership 7 5 sampleInvite 3
    [⟨1, 3, 1, .admin⟩] 2 rfl (by decide)).1
    ⟨⟨1, 3, 1, .admin⟩, by decide, rfl, rfl⟩

/-- After stamping, the owner's rows all carry a family. -/
theorem setFamilyOnNull_done (pk fid : Nat) (rs : List Record) :
    ∀ r ∈ setFamilyOnNull pk fid rs, r.parent = pk → r.familyId ≠ none := by
  intro r hr hp
  rcases List.mem_map.mp hr with ⟨r0, _, hf⟩
  by_cases hc : (r0.parent == pk && r0.familyId == none) = true
  · rw [if_pos hc] at hf
    rw [← hf]
    exact Option.noConfusion
  · rw [if_neg hc] at hf
    subst hf
    rw [Bool.and_eq_true] at hc
    push_neg at hc
    intro hn
    exact absurd (by simp [hn]) (hc (by simp [hp]))

/-- Stamping for another owner does not reintroduce null families. -/
theorem setFamilyOnNull_preserves_done (pk pk' fid : Nat) (rs : List Record)
    (h : ∀ r ∈ rs, r.parent = pk → r.familyId ≠ none) :
    ∀ r ∈ setFamilyOnNull pk' fid rs, r.parent = pk → r.familyId ≠ none := by
  intro r hr hp
  rcases List.mem_map.mp hr with ⟨r0, hr0, hf⟩
  by_cases hc : (r0.parent == pk' && r0.familyId == none) = true
  · rw [if_pos hc] at hf
    rw [← hf]
    exact Option.noConfusion
  · rw [if_neg hc] at hf
    subst hf
    exact h r0 hr0 hp

/-- Stamping is the identity when the owner has no null-family rows left. -/
theorem setFamilyOnNull_id (pk fid : Nat) (rs : List Record)
    (h : ∀ r ∈ rs, r.parent = pk → r.familyId ≠ none) :
    setFamilyOnNull pk fid rs = rs := by
  induction rs with
  | nil => rfl
  | cons r rs ih =>
      have hr := h r (List.mem_cons_self r rs)
      have hc : (r.parent == pk && r.familyId == none) = false := by
        cases hcp : (r.parent == pk) with
        | false => simp
        | true =>
            have := hr (beq_iff_eq.mp hcp)
            simp [this]
      simp only [setFamilyOnNull, List.map_cons, hc, Bool.false_eq_true,
        if_false]
      have := ih fun r' hr' => h r' (List.mem_cons_of_mem r hr')
      simpa [setFamilyOnNull] using this

/-- Stamping preserves the owner column. -/
theorem setFamilyOnNull_map_parent (pk fid : Nat) (rs : List Record) :
    (setFamilyOnNull pk fid rs).map (fun r => r.parent)
      = rs.map fun r => r.parent := by
  unfold setFamilyOnNull
  rw [List.map_map]
  refine List.map_congr_left fun r _ => ?_
  simp only [Function.comp_apply]
  by_cases hc : (r.parent == pk && r.familyId == none) = true
  · rw [if_pos hc]
  · rw [if_neg hc]

/-- Stamping never alters a record that already carries a family. -/
theorem setFamilyOnNull_nonnull_pres (pk fid : Nat) (rs : List Record) :
    List.Forall₂ (fun r r' => r.familyId.isSome → r' = r) rs
      (setFamilyOnNull pk fid rs) := by
  induction rs with
  | nil => exact List.Forall₂.nil
  | cons r rs ih =>
      refine List.Forall₂.cons ?_ ih
      intro hs
      by_cases hc : (r.parent == pk && r.familyId == none) = true
      · rw [Bool.and_eq_true] at hc
        rw [beq_iff_eq.mp hc.2] at hs
        simp at hs
      · simp [setFamilyOnNull, hc]

/-- The min-by-id fold starting from a row always yields a row. -/
theorem foldl_firstById_isSome (l : List Membership) :
    ∀ a : Membership,
      (l.foldl
        (fun acc m' =>
          match acc with
          | none => some m'
          | some a => if m'.id < a.id then some m' else some a)
        (some a)).isSome = true := by
  induction l with
  | nil => intro a; rfl
  | cons b l ih =>
      intro a
      rw [List.foldl_cons]
      by_cases hb : b.id < a.id
      · have hstep : (if b.id < a.id then some b else some a) = some b :=
          if_pos hb
        simp only [hstep]
        exact ih b
      · have hstep : (if b.id < a.id then some b else some a) = some a :=
          if_neg hb
        simp only [hstep]
        exact ih a

/-- `firstById` of a non-empty list yields a row. -/
theorem firstById_isSome (l : List Membership) (h : l ≠ []) :
    ∃ m, firstById l = some m := by
  cases l with
  | nil => exact absurd rfl h
  | cons b l =>
      have hs := foldl_firstById_isSome l b
      cases hr : (l.foldl
          (fun acc m' =>
            match acc with
            | none => some m'
            | some a => if m'.id < a.id then some m' else some a)
          (some b)) with
      | none => rw [hr] at hs; exact Bool.noConfusion hs
      | some m =>
          refine ⟨m, ?_⟩
          show (l.foldl
            (fun acc m' =>
              match acc with
              | none => some m'
              | some a => if m'.id < a.id then some m' else some a)
            (some b)) = some m
          exact hr

/-- The min-by-id fold yields the accumulator or a list element. -/
theorem foldl_firstById_mem (l : List Membership) :
    ∀ a b : Membership,
      (l.foldl
        (fun acc m' =>
          match acc with
          | none => some m'
          | some a => if m'.id < a.id then some m' else some a)
        (some a)) = some b → b = a ∨ b ∈ l := by
  induction l with
  | nil =>
      intro a b h
      exact Or.inl (Option.some.inj h).symm
  | cons c l ih =>
      intro a b h
      rw [List.foldl_cons] at h
      by_cases hc : c.id < a.id
      · have hstep : (if c.id < a.id then some c else some a) = some c :=
          if_pos hc
        simp only [hstep] at h
        rcases ih c b h with h' | h'
        · exact Or.inr (h' ▸ List.mem_cons_self c l)
        · exact Or.inr (List.mem_cons_of_mem c h')
      · have hstep : (if c.id < a.id then some c else some a) = some a :=
          if_neg hc
        simp only [hstep] at h
        rcases ih a b h with h' | h'
        · exact Or.inl h'
        · exact Or.inr (List.mem_cons_of_mem c h')

/-- `firstById` returns an element of the list. -/
theorem firstById_mem (l : List Membership) (m : Membership)
    (h : firstById l = some m) : m ∈ l := by
  cases l with
  | nil => exact Option.noConfusion h
  | cons b l =>
      unfold firstById at h
      rw [List.foldl_cons] at h
      rcases foldl_firstById_mem l b m h with h' | h'
      · exact h' ▸ List.mem_cons_self b l
      · exact List.mem_cons_of_mem b h'

/-- `processUser` never touches the user table. -/
theorem processUser_users (u : User) (st : MigState) :
    (processUser u st).users = st.users := by
  unfold processUser
  cases firstById
      (st.memberships.filter fun m => m.userId == u.pk && m.role == Role.parent) <;>
    rfl

/-- `processUser` preserves the owner column of every resource list. -/
theorem processUser_parentIds (u : User) (st : MigState) :
    parentIds (processUser u st) = parentIds st := by
  unfold processUser
  cases firstById
      (st.memberships.filter fun m => m.userId == u.pk && m.role == Role.parent) <;>
    simp [parentIds, setFamilyOnNull_map_parent]

/-- The students list after `processUser` is a stamping of the one before. -/
theorem processUser_students (u : User) (st : MigState) :
    ∃ fid, (processUser u st).students = setFamilyOnNull u.pk fid st.students := by
  unfold processUser
  cases firstById
      (st.memberships.filter fun m => m.userId == u.pk && m.role == Role.parent) with
  | none => exact ⟨st.nextFamilyId, rfl⟩
  | some m => exact ⟨m.familyId, rfl⟩

/-- The curricula list after `processUser` is a stamping of the one before. -/
theorem processUser_curricula (u : User) (st : MigState) :
    ∃ fid, (processUser u st).curricula = setFamilyOnNull u.pk fid st.curricula := by
  unfold processUser
  cases firstById
      (st.memberships.filter fun m => m.userId == u.pk && m.role == Role.parent) with
  | none => exact ⟨st.nextFamilyId, rfl⟩
  | some m => exact ⟨m.familyId, rfl⟩

/-- The assignments list after `processUser` is a stamping of the one before. -/
theorem processUser_assignments (u : User) (st : MigState) :
    ∃ fid, (processUser u st).assignments
      = setFamilyOnNull u.pk fid st.assignments := by
  unfold processUser
  cases firstById
      (st.memberships.filter fun m => m.userId == u.pk && m.role == Role.parent) with
  | none => exact ⟨st.nextFamilyId, rfl⟩
  | some m => exact ⟨m.familyId, rfl⟩

/-- `processUser` only appends membership rows. -/
theorem processUser_memberships_mono (u : User) (st : MigState)
    (m : Membership) (hm : m ∈ st.memberships) :
    m ∈ (processUser u st).memberships := by
  unfold processUser
  cases firstById
      (st.memberships.filter fun m => m.userId == u.pk && m.role == Role.parent) with
  | none => exact List.mem_append_left _ hm
  | some m' => exact hm

/-- After `processUser u`, the postcondition holds for `u` itself. -/
theorem processUser_done_self (u : User) (st : MigState) :
    DoneU (processUser u st) u.pk := by
  unfold processUser
  cases hfb : firstById
      (st.memberships.filter fun m => m.userId == u.pk && m.role == Role.parent) with
  | some m =>
      have hmem := firstById_mem _ m hfb
      rcases List.mem_filter.mp hmem with ⟨hms, hcond⟩
      rw [Bool.and_eq_true] at hcond
      exact ⟨⟨m, hms, beq_iff_eq.mp hcond.1, beq_iff_eq.mp hcond.2⟩,
        setFamilyOnNull_done _ _ _, setFamilyOnNull_done _ _ _,
        setFamilyOnNull_done _ _ _⟩
  | none =>
      refine ⟨⟨⟨st.nextMembId, u.pk, st.nextFamilyId, Role.parent⟩,
        List.mem_append_right _ (List.mem_singleton.mpr rfl), rfl, rfl⟩,
        setFamilyOnNull_done _ _ _, setFamilyOnNull_done _ _ _,
        setFamilyOnNull_done _ _ _⟩

/-- `processUser` preserves the postcondition for every user. -/
theorem processUser_done_pres (u : User) (st : MigState) (pk : Nat)
    (h : DoneU st pk) : DoneU (processUser u st) pk := by
  obtain ⟨⟨m, hm, hmu, hmr⟩, hs, hc, ha⟩ := h
  refine ⟨⟨m, processUser_memberships_mono u st m hm, hmu, hmr⟩, ?_, ?_, ?_⟩
  · obtain ⟨fid, hfid⟩ := processUser_students u st
    rw [hfid]
    exact setFamilyOnNull_preserves_done _ _ _ _ hs
  · obtain ⟨fid, hfid⟩ := processUser_curricula u st
    rw [hfid]
    exact setFamilyOnNull_preserves_done _ _ _ _ hc
  · obtain ⟨fid, hfid⟩ := processUser_assignments u st
    rw [hfid]
    exact setFamilyOnNull_preserves_done _ _ _ _ ha

/-- Folding `processUser` preserves the postcondition. -/
theorem foldl_done_pres (L : List User) (s : MigState) (pk : Nat)
    (h : DoneU s pk) :
    DoneU (L.foldl (fun s u => processUser u s) s) pk := by
  induction L generalizing s with
  | nil => exact h
  | cons b L ih =>
      rw [List.foldl_cons]
      exact ih (processUser b s) (processUser_done_pres b s pk h)

/-- After the full fold, the postcondition holds for every processed user. -/
theorem foldl_done_all (L : List User) (s : MigState) :
    ∀ u ∈ L, DoneU (L.foldl (fun s u => processUser u s) s) u.pk := by
  induction L generalizing s with
  | nil => intro u hu; cases hu
  | cons b L ih =>
      intro u hu
      rw [List.foldl_cons]
      rcases List.mem_cons.mp hu with hu | hu
      · subst hu
        exact foldl_done_pres L (processUser u s) u.pk
          (processUser_done_self u s)
      · exact ih (processUser b s) u hu

/-- Once the postcondition holds for a user, processing it again is a no-op. -/
theorem processUser_id (u : User) (st : MigState) (h : DoneU st u.pk) :
    processUser u st = st := by
  obtain ⟨⟨m, hm, hmu, hmr⟩, hs, hc, ha⟩ := h
  have hmf : m ∈ st.memberships.filter
      fun m => m.userId == u.pk && m.role == Role.parent :=
    List.mem_filter.mpr ⟨hm, by simp [hmu, hmr]⟩
  have hne : (st.memberships.filter
      fun m => m.userId == u.pk && m.role == Role.parent) ≠ [] :=
    List.ne_nil_of_mem hmf
  obtain ⟨m0, hm0⟩ := firstById_isSome _ hne
  unfold processUser
  rw [hm0]
  simp only [setFamilyOnNull_id _ _ _ hs, setFamilyOnNull_id _ _ _ hc,
    setFamilyOnNull_id _ _ _ ha]

/-- Folding `processUser` over already-processed users changes nothing. -/
theorem foldl_processUser_id (L : List User) (s : MigState)
    (h : ∀ u ∈ L, DoneU s u.pk) :
    L.foldl (fun s u => processUser u s) s = s := by
  induction L with
  | nil => rfl
  | cons b L ih =>
      rw [List.foldl_cons,
        processUser_id b s (h b (List.mem_cons_self b L))]
      exact ih fun u hu => h u (List.mem_cons_of_mem b hu)

/-- The fold preserves the user table. -/
theorem foldl_users (L : List User) (s : MigState) :
    (L.foldl (fun s u => processUser u s) s).users = s.users := by
  induction L generalizing s with
  | nil => rfl
  | cons b L ih =>
      rw [List.foldl_cons, ih (processUser b s), processUser_users]

/-- The fold preserves the owner columns. -/
theorem foldl_parentIds (L : List User) (s : MigState) :
    parentIds (L.foldl (fun s u => processUser u s) s) = parentIds s := by
  induction L generalizing s with
  | nil => rfl
  | cons b L ih =>
      rw [List.foldl_cons, ih (processUser b s), processUser_parentIds]

/-- Non-null preservation composes across successive stampings. -/
theorem nonnull_trans {l1 l2 l3 : List Record}
    (h12 : List.Forall₂ (fun r r' => r.familyId.isSome → r' = r) l1 l2)
    (h23 : List.Forall₂ (fun r r' => r.familyId.isSome → r' = r) l2 l3) :
    List.Forall₂ (fun r r' => r.familyId.isSome → r' = r) l1 l3 := by
  induction h12 generalizing l3 with
  | nil =>
      cases h23
      exact List.Forall₂.nil
  | cons hq h ih =>
      cases h23 with
      | cons hq' h' =>
          refine List.Forall₂.cons ?_ (ih h')
          intro hs
          have hb := hq hs
          have hbs := hb ▸ hs
          exact (hq' hbs).trans hb

/-- The whole fold never alters records that already carry a family. -/
theorem foldl_nonnull (L : List User) (s : MigState) :
    List.Forall₂ (fun r r' => r.familyId.isSome → r' = r) s.students
      (L.foldl (fun s u => processUser u s) s).students
    ∧ List.Forall₂ (fun r r' => r.familyId.isSome → r' = r) s.curricula
      (L.foldl (fun s u => processUser u s) s).curricula
    ∧ List.Forall₂ (fun r r' => r.familyId.isSome → r' = r) s.assignments
      (L.foldl (fun s u => processUser u s) s).assignments := by
  induction L generalizing s with
  | nil =>
      exact ⟨List.forall₂_same.mpr fun x _ _ => rfl,
        List.forall₂_same.mpr fun x _ _ => rfl,
        List.forall₂_same.mpr fun x _ _ => rfl⟩
  | cons b L ih =>
      rw [List.foldl_cons]
      obtain ⟨ihs, ihc, iha⟩ := ih (processUser b s)
      obtain ⟨fs, hfs⟩ := processUser_students b s
      obtain ⟨fc, hfc⟩ := processUser_curricula b s
      obtain ⟨fa, hfa⟩ := processUser_assignments b s
      refine ⟨nonnull_trans ?_ ihs, nonnull_trans ?_ ihc,
        nonnull_trans ?_ iha⟩
      · rw [hfs]; exact setFamilyOnNull_nonnull_pres _ _ _
      · rw [hfc]; exact setFamilyOnNull_nonnull_pres _ _ _
      · rw [hfa]; exact setFamilyOnNull_nonnull_pres _ _ _

/-- C9: the backfill migration is idempotent — a second run reproduces the
exact same store state (so the same Family and Membership row counts and the
same family assignment on every resource record), and any record whose
family was already set before a run keeps it unchanged. -/
theorem C9_backfill_idempotent (st : MigState) :
    backfill_families (backfill_families st) = backfill_families st
    ∧ List.Forall₂ (fun r r' => r.familyId.isSome → r' = r) st.students
        (backfill_families st).students
    ∧ List.Forall₂ (fun r r' => r.familyId.isSome → r' = r) st.curricula
        (backfill_families st).curricula
    ∧ List.Forall₂ (fun r r' => r.familyId.isSome → r' = r) st.assignments
        (backfill_families st).assignments := by
  have hrun1 : backfill_families st
      = (st.users.filter fun u => (parentIds st).contains u.pk).foldl
          (fun s u => processUser u s) st := rfl
  refine ⟨?_, ?_, ?_, ?_⟩
  · have husers : (backfill_families st).users = st.users := by
      rw [hrun1]; exact foldl_users _ _
    have hpids : parentIds (backfill_families st) = parentIds st := by
      rw [hrun1]; exact foldl_parentIds _ _
    have hrun2 : backfill_families (backfill_families st)
        = ((backfill_families st).users.filter
            fun u => (parentIds (backfill_families st)).contains u.pk).foldl
            (fun s u => processUser u s) (backfill_families st) := rfl
    rw [hrun2, husers, hpids]
    apply foldl_processUser_id
    intro u hu
    rw [hrun1]
    exact foldl_done_all _ st u hu
  · rw [hrun1]; exact (foldl_nonnull _ st).1
  · rw [hrun1]; exact (foldl_nonnull _ st).2.1
  · rw [hrun1]; exact (foldl_nonnull _ st).2.2

/-- C9 witness. -/
theorem C9_backfill_idempotent_witness :
    backfill_families (backfill_families sampleMig)
      = backfill_families sampleMig := by
  exact (C9_backfill_idempotent sampleMig).1

end HomeschoolHub
